import Mathlib

/-!
Formal model of the FastTextSuggester repository.

Shallow embedding of the corpus / suggestion engine
(`src/core/suggestion_manager.py`), the retention sweep (`src/core/ocr.py`)
and the capture state machine (`src/core/screenshot_ocr_tool.py`).

Strings are modelled through their character lists; `str.lower` is modelled
for the ASCII range (the repository's own matching only distinguishes ASCII
case), machine time stamps are modelled as integers (whole seconds; the
claims under study only mention whole-second ages).
-/

/-- Lowercasing, as Python `str.lower` on ASCII text (models line 423 of
suggestion_manager.py, `partial_text.lower()`, and the `.lower()` calls in
the match stages). -/
def pyLower (s : String) : String := ⟨s.data.map Char.toLower⟩

/-- Bool test that `needle` occurs as a contiguous substring of `hay`
(Python's `needle in hay` on strings). -/
def substrB (hay needle : List Char) : Bool :=
  needle.isPrefixOf hay ||
    match hay with
    | [] => false
    | _ :: t => substrB t needle

/-- Python `needle in hay` for `String`. -/
def strContains (hay needle : String) : Bool := substrB hay.data needle.data

/-- Python `s.startswith (p)` for `String`. -/
def strStartsWith (s p : String) : Bool := p.data.isPrefixOf s.data

/-- Python `s.endswith (p)` for `String`. -/
def strEndsWith (s p : String) : Bool := p.data.isSuffixOf s.data

/-- Python `c in s` for a single character. -/
def strHasChar (s : String) (c : Char) : Bool := s.data.contains c

/-- The four corpus collections held by `SuggestionManager`
(`self.words`, `self.phrases`, `self.lines`, `self.blocks`; the Python
dict preserves insertion order, so `blocks` is an insertion-ordered
association list of key/block pairs). -/
structure Store where
  words : List String
  phrases : List String
  lines : List String
  blocks : List (String × String)
deriving DecidableEq

/-- The store every fresh `SuggestionManager` starts from. -/
def emptyStore : Store := ⟨[], [], [], []⟩

/-! ### The seven match stages of `get_suggestions`
(suggestion_manager.py lines 425-462).  Each stage function takes the
already-lowercased query `q`, exactly as the Python code lowercases
`partial_text` once up front. -/

/-- Stage 1: keys of blocks whose full body contains the query
(lines 427-430). -/
def blockMatches (st : Store) (q : String) : List String :=
  (st.blocks.filter (fun kb => strContains (pyLower kb.2) q)).map Prod.fst

/-- Stage 2: lines containing the query (lines 433-436). -/
def lineMatches (st : Store) (q : String) : List String :=
  st.lines.filter (fun l => strContains (pyLower l) q)

/-- Stage 3: email-affinity matches, only when the query has `@` or `.`
(lines 439-444). -/
def emailMatches (st : Store) (q : String) : List String :=
  if strHasChar q '@' || strHasChar q '.' then
    st.words.filter (fun w => strHasChar w '@' && strContains (pyLower w) q)
  else []

/-- Stage 4: words whose lowercase form starts with the query (line 447;
source name `prefix_word_matches`). -/
def startWordMatches (st : Store) (q : String) : List String :=
  st.words.filter (fun w => strStartsWith (pyLower w) q)

/-- Stage 5: phrases whose lowercase form starts with the query (line 450;
source name `prefix_phrase_matches`). -/
def startPhraseMatches (st : Store) (q : String) : List String :=
  st.phrases.filter (fun p => strStartsWith (pyLower p) q)

/-- Stage 6: words containing the query but not starting with it
(lines 453-456; source name `substring_word_matches`). -/
def substrWordMatches (st : Store) (q : String) : List String :=
  st.words.filter (fun w => strContains (pyLower w) q && !(strStartsWith (pyLower w) q))

/-- Stage 7: phrases containing the query but not starting with it
(lines 459-462; source name `substring_phrase_matches`). -/
def substrPhraseMatches (st : Store) (q : String) : List String :=
  st.phrases.filter (fun p => strContains (pyLower p) q && !(strStartsWith (pyLower p) q))

/-- `all_matches` (line 466): the seven stages concatenated in priority
order. -/
def allMatches (st : Store) (q : String) : List String :=
  blockMatches st q ++ lineMatches st q ++ emailMatches st q ++
    startWordMatches st q ++ startPhraseMatches st q ++
    substrWordMatches st q ++ substrPhraseMatches st q

/-- The duplicate-removal loop of lines 469-472
(`for match in all_matches: if match not in unique_matches: append`). -/
def uniqueLoop (acc : List String) : List String → List String
  | [] => acc
  | m :: rest => if m ∈ acc then uniqueLoop acc rest else uniqueLoop (acc ++ [m]) rest

/-- `unique_matches` of line 469. -/
def uniqueMatches (l : List String) : List String := uniqueLoop [] l

/-- `SuggestionManager.get_suggestions` (lines 409-474): empty input gives
the empty list, otherwise the deduplicated stage concatenation truncated to
`max_results` (default 10). -/
def get_suggestions (st : Store) (ptext : String) (max_results : Nat := 10) : List String :=
  if ptext = "" then []
  else (uniqueMatches (allMatches st (pyLower ptext))).take max_results

/-! ### Tokenization helpers (suggestion_manager.py ingestion functions) -/

/-- Python regex `\w` on ASCII text: alphanumeric or underscore. -/
def isWordChar (c : Char) : Bool := c.isAlphanum || c = '_'

/-- The whitespace set of Python `str.split ()` / `str.strip ()`. -/
def isPySpace (c : Char) : Bool :=
  c = ' ' || c = '\t' || c = '\n' || c = '\x0d' || c = '\x0b' || c = '\x0c'

/-- Maximal runs of characters satisfying `keep` (the accumulator holds the
current run reversed). -/
def runsOfAux (keep : Char → Bool) : List Char → List Char → List String
  | [], cur => if cur.isEmpty then [] else [⟨cur.reverse⟩]
  | c :: rest, cur =>
    if keep c then runsOfAux keep rest (c :: cur)
    else if cur.isEmpty then runsOfAux keep rest []
    else ⟨cur.reverse⟩ :: runsOfAux keep rest []

/-- `re.findall (r"\b\w+\b", content)` of lines 101 and 377: the maximal
word-character runs of the text. -/
def findWords (content : String) : List String := runsOfAux isWordChar content.data []

/-- Python `content.split ()` (lines 153 and 385): maximal non-whitespace
runs. -/
def pySplit (content : String) : List String :=
  runsOfAux (fun c => !isPySpace c) content.data []

/-- Python `s.strip ()`. -/
def pyStrip (s : String) : String :=
  ⟨((s.data.dropWhile isPySpace).reverse.dropWhile isPySpace).reverse⟩

/-- Python `s.split (sep)` for a non-empty separator, on character lists;
fuel-driven so that it reduces by kernel evaluation (fuel `l.length + 1`
always suffices: every step consumes at least one character). -/
def splitSepAux (sep : List Char) : Nat → List Char → List Char → List (List Char)
  | 0, l, cur => [cur.reverse ++ l]
  | fuel+1, l, cur =>
    if sep.isPrefixOf l then cur.reverse :: splitSepAux sep fuel (l.drop sep.length) []
    else match l with
      | [] => [cur.reverse]
      | c :: rest => splitSepAux sep fuel rest (c :: cur)

/-- Python `s.split (sep)` for `String`. -/
def pySplitSep (s : String) (sep : String) : List String :=
  (splitSepAux sep.data (s.data.length + 1) s.data []).map (fun l => ⟨l⟩)

/-- Python `re.split` on a character class (used for `re.split (r"[._-]",
username)` at line 128); empty fields are kept, as `re.split` does. -/
def splitAnyAux (seps : List Char) : List Char → List Char → List (List Char)
  | [], cur => [cur.reverse]
  | c :: rest, cur =>
    if seps.contains c then cur.reverse :: splitAnyAux seps rest []
    else splitAnyAux seps rest (c :: cur)

/-- `re.split` on a set of single characters, for `String`. -/
def reSplitAny (seps : List Char) (s : String) : List String :=
  (splitAnyAux seps s.data []).map (fun l => ⟨l⟩)

/-! ### Email and URL extraction (lines 104-150)

Port of the scan of `re.findall` with the email pattern
`\b[A-Za-z0-9._%+-]+@[A-Za-z0-9.-]+\.[A-Z|a-z]{2,}\b`: leftmost scanning,
one position at a time; on a match the scan resumes after the matched text,
as `findall` produces non-overlapping matches. -/

/-- The character class `[A-Za-z0-9._%+-]` of the email local part. -/
def isLocalChar (c : Char) : Bool :=
  c.isAlphanum || c = '.' || c = '_' || c = '%' || c = '+' || c = '-'

/-- The character class `[A-Za-z0-9.-]` of the email domain. -/
def isDomainChar (c : Char) : Bool := c.isAlphanum || c = '.' || c = '-'

/-- Word-character test of the preceding character for `\b` (start of text
counts as a non-word position). -/
def prevIsWord : Option Char → Bool
  | none => false
  | some c => isWordChar c

/-- All decompositions of a character list around a dot, leftmost dot
first. -/
def dotSplits : List Char → List (List Char × List Char)
  | [] => []
  | c :: rest =>
    let tail := (dotSplits rest).map (fun p => (c :: p.1, p.2))
    if c = '.' then ([], rest) :: tail else tail

/-- Greedy `[A-Z|a-z]{2,}` followed by `\b`, applied to the part `d2` of the
domain after a candidate final dot; `follow` is the first character after
the whole domain run. -/
def tldOk (follow : Option Char) (d2 : List Char) : Option (List Char) :=
  let tld := d2.takeWhile Char.isAlpha
  if 2 ≤ tld.length then
    match (d2.drop tld.length).head? with
    | some c => if isWordChar c then none else some tld
    | none =>
      match follow with
      | some c => if isWordChar c then none else some tld
      | none => some tld
  else none

/-- Backtracking of the greedy domain: the latest dot admitting a valid TLD
wins, and the part before the dot must be non-empty (it is the `+` part of
`[A-Za-z0-9.-]+`). -/
def domSplit (dom : List Char) (follow : Option Char) : Option (List Char × List Char) :=
  ((dotSplits dom).reverse.filterMap (fun p =>
    if p.1.isEmpty then none
    else (tldOk follow p.2).map (fun tld => (p.1, tld)))).head?

/-- Attempt an email match at the current position; returns the matched
text and the number of characters consumed. -/
def matchEmailAt (prev : Option Char) (l : List Char) : Option (String × Nat) :=
  let localRun := l.takeWhile isLocalChar
  if localRun.isEmpty then none
  else if prevIsWord prev == isWordChar (localRun.headD ' ') then none
  else
    match l.drop localRun.length with
    | '@' :: afterAt =>
      let dom := afterAt.takeWhile isDomainChar
      let follow := (afterAt.drop dom.length).head?
      match domSplit dom follow with
      | some (d1, tld) =>
        some (⟨localRun ++ '@' :: (d1 ++ '.' :: tld)⟩,
              localRun.length + 1 + d1.length + 1 + tld.length)
      | none => none
    | _ => none

/-- The `findall` scan for emails (fuel-driven; fuel `l.length` suffices
since every step consumes at least one character). -/
def findEmailsAux : Nat → Option Char → List Char → List String
  | 0, _, _ => []
  | fuel+1, prev, l =>
    match l with
    | [] => []
    | c :: rest =>
      match matchEmailAt prev l with
      | some (s, n) => s :: findEmailsAux fuel s.data.getLast? (l.drop n)
      | none => findEmailsAux fuel (some c) rest

/-- `re.findall` with the email pattern of line 105. -/
def findEmails (content : String) : List String :=
  findEmailsAux content.data.length none content.data

/-- Host characters `[-\w.]` of the URL pattern of line 146. -/
def isUrlHostChar (c : Char) : Bool := c = '-' || isWordChar c || c = '.'

/-- Path characters `[-\w%!./?=&+#~:;]` of the URL pattern. -/
def isUrlPathChar (c : Char) : Bool :=
  c = '-' || isWordChar c || c = '%' || c = '!' || c = '.' || c = '/' ||
    c = '?' || c = '=' || c = '&' || c = '+' || c = '#' || c = '~' ||
    c = ':' || c = ';'

/-- Attempt a URL match (`https?://` then host, then optional path groups)
at the current position. -/
def matchUrlAt (l : List Char) : Option (String × Nat) :=
  let pre : Option (List Char × Nat) :=
    if ("http://".data).isPrefixOf l then some ("http://".data, 7)
    else if ("https://".data).isPrefixOf l then some ("https://".data, 8)
    else none
  match pre with
  | none => none
  | some (p, n) =>
    let rest := l.drop n
    let host := rest.takeWhile isUrlHostChar
    if host.isEmpty then none
    else
      let rest2 := rest.drop host.length
      let path := if rest2.head? = some '/' then rest2.takeWhile isUrlPathChar else []
      some (⟨p ++ host ++ path⟩, n + host.length + path.length)

/-- The `findall` scan for URLs (fuel-driven). -/
def findUrlsAux : Nat → List Char → List String
  | 0, _ => []
  | fuel+1, l =>
    match l with
    | [] => []
    | _ :: rest =>
      match matchUrlAt l with
      | some (s, n) => s :: findUrlsAux fuel (l.drop n)
      | none => findUrlsAux fuel rest

/-- `re.findall` with the URL pattern of line 146. -/
def findUrls (content : String) : List String := findUrlsAux content.data.length content.data

/-- `url.rstrip (".,;:'\"")` of line 149 (39 and 34 are the code points of
the apostrophe and the double quote). -/
def cleanUrl (u : String) : String :=
  ⟨(u.data.reverse.dropWhile (fun c =>
      c = '.' || c = ',' || c = ';' || c = ':' || c.toNat = 39 || c.toNat = 34)).reverse⟩

/-! ### Phrase windows and ingestion passes -/

/-- The 2-, 3- and 4-token windows of lines 154-163 / 386-401, produced in
the loop's order: for each position, first the 2-word, then the 3-word,
then the 4-word phrase. -/
def phraseWindows : List String → List String
  | [] => []
  | w :: rest =>
    (match rest with
     | r1 :: rtail =>
       (w ++ " " ++ r1) ::
       (match rtail with
        | r2 :: rtail2 =>
          (w ++ " " ++ r1 ++ " " ++ r2) ::
          (match rtail2 with
           | r3 :: _ => [w ++ " " ++ r1 ++ " " ++ r2 ++ " " ++ r3]
           | [] => [])
        | [] => [])
     | [] => []) ++ phraseWindows rest

/-- Python `list (set (words))` of line 102.  CPython's set iteration order
is implementation-defined; it is modelled as first-occurrence order.  No
claim under study depends on this order, only on membership and
multiplicity. -/
def pySetList (ws : List String) : List String := uniqueLoop [] ws

/-- The TLD stoplist of line 141. -/
def tldStop : List String := ["com", "org", "net", "edu", "gov", "io"]

/-- The words appended for one found email by the loop body of lines
106-142: the full email, the local part, partial local parts recombined
with the domain, long local-part segments, the domain, and long
non-stoplisted domain segments. -/
def emailAugment (email : String) : List String :=
  [email] ++
  (if strHasChar email '@' then
    let username := (pySplitSep email "@").headD ""
    let domainPart := ((pySplitSep email "@").drop 1).headD ""
    [username] ++
    (if strHasChar username '.' then
      let parts := pySplitSep username "."
      if 1 < parts.length then
        parts.filterMap (fun pu =>
          if pu ≠ "" && 1 < pu.length then some (pu ++ "@" ++ domainPart) else none)
      else []
    else []) ++
    ((reSplitAny ['.', '_', '-'] username).filterMap (fun part =>
      if part ≠ "" && 2 < part.length then some part else none))
  else []) ++
  (if strHasChar email '@' then
    let domain := ((pySplitSep email "@").drop 1).headD ""
    [domain] ++
    ((pySplitSep domain ".").filterMap (fun part =>
      if part ≠ "" && 2 < part.length && !(tldStop.contains (pyLower part)) then
        some part
      else none))
  else [])

/-- `SuggestionManager._parse_ocr_file` (lines 82-169): words and phrases
are rebuilt from the capture text alone (lines 97-98 reset them), lines and
blocks are left as they are. -/
def parse_ocr_file (st : Store) (content : String) : Store :=
  let words0 := pySetList (findWords content)
  let words1 := (findEmails content).foldl (fun acc email => acc ++ emailAugment email) words0
  let words2 := (findUrls content).foldl (fun acc url => acc ++ [cleanUrl url]) words1
  { st with words := words2, phrases := phraseWindows (pySplit content) }

/-- The `if x not in collection: collection.append (x)` idiom used by the
data-file parsers. -/
def addIfAbsent (acc : List String) (x : String) : List String :=
  if x ∈ acc then acc else acc ++ [x]

/-- Folding `addIfAbsent` over a list of candidates. -/
def addAllIfAbsent (acc l : List String) : List String := l.foldl addIfAbsent acc

/-- `SuggestionManager._parse_data_file` (lines 362-407): words and phrase
windows appended with a per-item duplicate check. -/
def parse_data_file (st : Store) (content : String) : Store :=
  { st with
    words := addAllIfAbsent st.words (findWords content),
    phrases := addAllIfAbsent st.phrases (phraseWindows (pySplit content)) }

/-- `SuggestionManager._parse_line_file` (lines 225-249): stripped
non-empty lines appended with a duplicate check. -/
def parse_line_file (st : Store) (content : String) : Store :=
  { st with
    lines := addAllIfAbsent st.lines
      (((pySplitSep content "\n").map pyStrip).filter (fun l => l ≠ "")) }

/-- Common body of `_parse_tsv_file` (lines 251-282) and `_parse_csv_file`
(lines 284-315): every stripped non-empty delimited cell becomes a word,
with a duplicate check. -/
def parse_cells_file (sep : String) (st : Store) (content : String) : Store :=
  let step := fun (ws : List String) (line : String) =>
    if pyStrip line = "" then ws
    else (pySplitSep (pyStrip line) sep).foldl
      (fun acc v =>
        let v2 := pyStrip v
        if v2 ≠ "" && v2 ∉ acc then acc ++ [v2] else acc) ws
  { st with words := (pySplitSep content "\n").foldl step st.words }

/-- `SuggestionManager._parse_tsv_file`. -/
def parse_tsv_file (st : Store) (content : String) : Store := parse_cells_file "\t" st content

/-- `SuggestionManager._parse_csv_file`. -/
def parse_csv_file (st : Store) (content : String) : Store := parse_cells_file "," st content

/-! ### Separator files and block keys (lines 317-360) -/

/-- Decimal digit character. -/
def digitChar : Nat → Char
  | 0 => '0' | 1 => '1' | 2 => '2' | 3 => '3' | 4 => '4'
  | 5 => '5' | 6 => '6' | 7 => '7' | 8 => '8' | _ => '9'

/-- Decimal rendering of a natural number (fuel-driven; fuel `n` suffices
since `n / 10` reaches a single digit within `n` steps). -/
def natDecAux : Nat → Nat → List Char
  | 0, n => [digitChar (n % 10)]
  | fuel+1, n => if n < 10 then [digitChar n] else natDecAux fuel (n / 10) ++ [digitChar (n % 10)]

/-- Decimal rendering of a natural number, as Python `str (counter)`. -/
def natDecimal (n : Nat) : String := ⟨natDecAux n n⟩

/-- The disambiguated key `f"{first_line} ({counter})"` of line 352. -/
def numberedKey (fl : String) (c : Nat) : String := fl ++ " (" ++ natDecimal c ++ ")"

/-- The `while key in self.blocks` loop of lines 348-352, trying counters
`c, c+1, ...`.  Fuel `keys.length + 1` always suffices (there are more
candidate keys than existing keys), making the `fuel = 0` default
unreachable; `freshKeyAux_not_mem` below proves this. -/
def freshKeyAux (keys : List String) (fl : String) : Nat → Nat → String
  | _, 0 => ""
  | c, fuel+1 =>
    if numberedKey fl c ∈ keys then freshKeyAux keys fl (c+1) fuel else numberedKey fl c

/-- The collision-disambiguated block key of lines 345-352. -/
def freshKey (keys : List String) (fl : String) : String :=
  if fl ∈ keys then freshKeyAux keys fl 2 (keys.length + 1) else fl

/-- Insertion of one non-empty stripped block (lines 341-354): the
stripped first line keys the block, disambiguated against existing keys. -/
def insertBlock (blocks : List (String × String)) (b : String) : List (String × String) :=
  let firstLine := pyStrip ((pySplitSep b "\n").headD "")
  if firstLine = "" then blocks
  else blocks ++ [(freshKey (blocks.map Prod.fst) firstLine, b)]

/-- `SuggestionManager._parse_separator_file` (lines 317-360): content is
split on the literal `||`, each stripped non-empty block is stored keyed by
its first line. -/
def parse_separator_file (st : Store) (content : String) : Store :=
  { st with
    blocks := ((pySplitSep content "||").map pyStrip).foldl
      (fun bs b => if b = "" then bs else insertBlock bs b) st.blocks }

/-! ### Directory-level operations -/

/-- A file of the data directory, as a name/content pair (os.listdir
order). -/
structure DataFile where
  name : String
  content : String
deriving DecidableEq

/-- The filename filter of lines 191-195. -/
def isDataFileName (n : String) : Bool :=
  strEndsWith n ".txt" || strEndsWith n ".tsv" || strEndsWith n ".csv"

/-- The per-file suffix dispatch of lines 202-217. -/
def dispatch_parse (st : Store) (f : DataFile) : Store :=
  if strEndsWith f.name ".tsv" then parse_tsv_file st f.content
  else if strEndsWith f.name ".csv" then parse_csv_file st f.content
  else if strEndsWith f.name "_separator.txt" then parse_separator_file st f.content
  else if strEndsWith f.name "_line.txt" then parse_line_file st f.content
  else parse_data_file st f.content

/-- `SuggestionManager.load_data_files` (lines 171-223).  `none` models a
missing data directory (early return, nothing touched).  Otherwise the four
collections are cleared in place (lines 184-188) before the empty-directory
check, then each matching file is parsed in turn. -/
def load_data_files (st : Store) (dir : Option (List DataFile)) : Bool × Store :=
  match dir with
  | none => (false, st)
  | some files =>
    let rel := files.filter (fun f => isDataFileName f.name)
    if rel.isEmpty then (false, emptyStore)
    else (true, rel.foldl dispatch_parse emptyStore)

/-- The store states a concurrent reader can observe while
`load_data_files` runs on an existing directory: the pre-reload store, the
state after each of the four in-place clears of lines 184-188 (`words`,
then `phrases`, then `lines`, then `blocks` are emptied by separate
assignments), and the state after each parsed file (`List.scanl` keeps the
fully cleared seed and every intermediate fold state).  Every mutation
after the clears is an append, so a state inside a single file parse lies
membership-wise between the two neighbouring scanl states. -/
def reload_trace (st : Store) (files : List DataFile) : List Store :=
  st ::
  { st with words := [] } ::
  { st with words := [], phrases := [] } ::
  { st with words := [], phrases := [], lines := [] } ::
  List.scanl dispatch_parse emptyStore (files.filter (fun f => isDataFileName f.name))

/-- A persisted recognition artifact of the output directory: name,
modification time (seconds) and text content. -/
structure OcrFile where
  name : String
  mtime : Int
  content : String
deriving DecidableEq

/-- `SuggestionManager.load_latest_ocr_file` (lines 36-80): pick the newest
`.txt` file (Python's `sort (key=mtime, reverse=True)` is stable, which the
insertion sort by `≥` on mtime reproduces), reject it when older than 60
seconds, and parse it as a line file or a plain OCR file depending on the
`_line` suffix. -/
def load_latest_ocr_file (st : Store) (dir : Option (List OcrFile)) (now : Int) :
    Bool × Store :=
  match dir with
  | none => (false, st)
  | some entries =>
    let files := entries.filter (fun f => strEndsWith f.name ".txt")
    match List.insertionSort (fun a b => b.mtime ≤ a.mtime) files with
    | [] => (false, st)
    | latest :: _ =>
      if now - latest.mtime > 60 then (false, st)
      else if strEndsWith latest.name "_line.txt" then (true, parse_line_file st latest.content)
      else (true, parse_ocr_file st latest.content)

/-! ### The retention sweep (`OCRProcessor.cleanup_old_files`, ocr.py
lines 102-136).

Fallible filesystem calls are modelled per file: `statOk` says whether
`os.path.getmtime` succeeds (false for a file deleted or made unreadable
between `os.listdir` and the stat), `removable` whether `os.remove`
succeeds.  Only the `os.remove` call sits inside a `try` in the source;
a failing stat propagates out of the sweep. -/

structure SweepFile where
  name : String
  mtime : Int
  isDir : Bool
  statOk : Bool
  removable : Bool
deriving DecidableEq

/-- One iteration of the cleanup loop (lines 117-136): returns the file if
it is retained, `none` if it was deleted, and an error if the

modification-time read raises. -/
def sweepFileStep (now maxAgeSeconds : Int) (f : SweepFile) : Except String (Option SweepFile) :=
  if f.isDir then Except.ok (some f)
  else if strEndsWith f.name ".png" || strEndsWith f.name ".txt" then
    if f.statOk then
      if now - f.mtime > maxAgeSeconds then
        if f.removable then Except.ok none else Except.ok (some f)
      else Except.ok (some f)
    else Except.error f.name
  else Except.ok (some f)

/-- The cleanup loop over the directory listing. -/
def sweepLoop (now maxAgeSeconds : Int) : List SweepFile → Except String (List SweepFile)
  | [] => Except.ok []
  | f :: rest =>
    match sweepFileStep now maxAgeSeconds f with
    | Except.error e => Except.error e
    | Except.ok none => sweepLoop now maxAgeSeconds rest
    | Except.ok (some g) => (sweepLoop now maxAgeSeconds rest).map (g :: ·)

/-- `OCRProcessor.cleanup_old_files` (lines 102-136): the surviving files
of the output directory, or the exception escaping the sweep.  A missing
directory is a no-op (line 110). -/
def cleanup_old_files (dir : Option (List SweepFile)) (now : Int) (maxAgeHours : Int := 1) :
    Except String (List SweepFile) :=
  match dir with
  | none => Except.ok []
  | some files => sweepLoop now (maxAgeHours * 3600) files

/-! ### The capture state machine (`screenshot_ocr_tool.py`).

The fields below are the cross-thread state the claims reason about:
`ToolState` (tool_state.py), the `stop_ocr` flag, whether the OCR worker
thread is alive, the suggestion window's `ocr_in_progress` flag and its
visibility, and the suggestion manager's collections.  Suggestions are
enabled (the claims' context assumes the suggestion window exists). -/

inductive TState where
  | Idle
  | Selection
  | Capturing
  | Suggesting
deriving DecidableEq

structure ToolM where
  state : TState
  stop_ocr : Bool
  ocr_thread_alive : Bool
  ocr_in_progress : Bool
  window_visible : Bool
  store : Store
deriving DecidableEq

/-- `ScreenshotOCRTool.handle_capture_hotkey` (lines 86-118), restricted to
its SUGGESTING and CAPTURING branches; the IDLE/SELECTION branches open the
modal selection flow, which the claims under study do not touch, and are
modelled as the identity here. -/
def handle_capture_hotkey (m : ToolM) : ToolM :=
  match m.state with
  | TState.Suggesting =>
    let m1 := if m.ocr_thread_alive then { m with stop_ocr := true } else m
    { m1 with state := TState.Idle }
  | _ => m

/-- The completion part of `_process_ocr_in_background` (lines 240-266),
reached when the job is already past the stop-flag check of line 229:
recognition finishes, its output file is saved (becoming the newest fresh
artifact) and re-ingested through `load_latest_ocr_file`, i.e.
`_parse_ocr_file`, and the in-progress flag is cleared.  The tool state
and the window visibility are not touched. -/
def ocr_job_completion (m : ToolM) (ocrText : String) : ToolM :=
  { m with
    store := parse_ocr_file m.store ocrText,
    ocr_in_progress := false,
    ocr_thread_alive := false }

/-- `ScreenshotOCRTool._process_ocr_in_background` (lines 217-273): if the
stop flag is seen at the check of line 229, the job only clears the
in-progress flag and exits without ingesting; otherwise it runs to
`ocr_job_completion`.  Neither branch touches the tool state or the window
visibility. -/
def process_ocr_in_background (m : ToolM) (ocrText : String) : ToolM :=
  if m.stop_ocr then
    { m with ocr_in_progress := false, ocr_thread_alive := false }
  else ocr_job_completion m ocrText

/-- The window-visibility step of the orchestrating loop (start (), lines
374-378): the suggestion window is shown only when the state is SUGGESTING
and it is not already visible. -/
def main_loop_visibility_step (m : ToolM) : ToolM :=
  if m.state = TState.Suggesting && !m.window_visible then
    { m with window_visible := true }
  else m

/-! ### Auxiliary definitions used by the verification -/

/-- Normal form of `uniqueLoop`: drop elements already seen, emit the rest
in first-occurrence order. -/
def dedupF (seen : List String) : List String → List String
  | [] => []
  | x :: xs => if x ∈ seen then dedupF seen xs else x :: dedupF (x :: seen) xs

/-- Base-10 reading of a digit string (inverse of `natDecAux`). -/
def decodeDec (l : List Char) : Nat := l.foldl (fun a c => a * 10 + (c.toNat - 48)) 0

/-- All four collections duplicate-free, with unique block keys. -/
def StoreDedup (st : Store) : Prop :=
  st.words.Nodup ∧ st.phrases.Nodup ∧ st.lines.Nodup ∧ (st.blocks.map Prod.fst).Nodup

/-- Pointwise containment of the four collections (membership-wise),
used to state that a mid-reload reader only sees data of the new load. -/
def StoreLe (s t : Store) : Prop :=
  s.words ⊆ t.words ∧ s.phrases ⊆ t.phrases ∧ s.lines ⊆ t.lines ∧
    s.blocks.map Prod.fst ⊆ t.blocks.map Prod.fst

/-! Concrete inputs used by counterexamples and witnesses. -/

/-- A store holding one block, one reference word with query `abc` as a
proper prefix and one with it as an inner substring. -/
def demoStore : Store := ⟨["abcdef", "xabc"], [], [], [("Key", "Key\nabc body")]⟩

/-- The reference text of the email scenario. -/
def c5Content : String := "Contact: frank.schnepf@example.com for details"

/-- The email scenario ingested through the reference lane (data
directory). -/
def c5RefStore : Store := (load_data_files emptyStore (some [⟨"contacts.txt", c5Content⟩])).2

/-- The email scenario ingested through the capture lane (OCR text). -/
def c5CapStore : Store := parse_ocr_file emptyStore c5Content

/-- A one-file data directory holding a line-oriented reference file. -/
def c4Files : List DataFile := [⟨"notes_line.txt", "old line"⟩]

/-- The store after loading that directory once. -/
def c4Init : Store := (load_data_files emptyStore (some c4Files)).2

/-- A reference store loaded from the data directory, used to show the
capture ingest wipes reference words. -/
def c2RefStore : Store := (load_data_files emptyStore (some [⟨"ref.txt", "refword is here"⟩])).2

/-- Sweep input: a text file that disappeared between the directory
listing and its modification-time read. -/
def c8GoneFile : SweepFile := ⟨"gone.txt", 0, false, false, true⟩

/-- Sweep input: a mixed directory, every file still stat-able. -/
def c8Files : List SweepFile :=
  [⟨"old.txt", 0, false, true, true⟩,
   ⟨"stuck.png", 0, false, true, false⟩,
   ⟨"young.txt", 7000, false, true, true⟩,
   ⟨"sub.png", 0, true, true, true⟩,
   ⟨"keep.log", 0, false, true, true⟩]

/-- A machine state sitting in SUGGESTING with a live recognition job. -/
def c9State : ToolM := ⟨TState.Suggesting, false, true, true, true, emptyStore⟩

/-- The retention decision of one sweep iteration, as a pure predicate:
a file survives the sweep when it is a directory, is neither a screenshot
nor a text file, is not older than the threshold, or cannot be removed. -/
def keepFile (now maxAgeSeconds : Int) (f : SweepFile) : Bool :=
  f.isDir || !(strEndsWith f.name ".png" || strEndsWith f.name ".txt") ||
    !(decide (now - f.mtime > maxAgeSeconds)) || !f.removable

/-! ### Properties of the deduplication loop -/

theorem dedupF_congr {s1 s2 : List String} (l : List String)
    (h : ∀ a, a ∈ s1 ↔ a ∈ s2) : dedupF s1 l = dedupF s2 l := by
  induction l generalizing s1 s2 with
  | nil => rfl
  | cons x xs ih =>
    simp only [dedupF]
    by_cases hx : x ∈ s1
    · rw [if_pos hx, if_pos ((h x).mp hx)]
      exact ih h
    · rw [if_neg hx, if_neg (fun hc => hx ((h x).mpr hc))]
      congr 1
      apply ih
      intro a
      simp only [List.mem_cons]
      exact or_congr Iff.rfl (h a)

theorem uniqueLoop_eq_dedupF (l : List String) :
    ∀ acc, uniqueLoop acc l = acc ++ dedupF acc l := by
  induction l with
  | nil => intro acc; simp [uniqueLoop, dedupF]
  | cons x xs ih =>
    intro acc
    simp only [uniqueLoop, dedupF]
    by_cases hx : x ∈ acc
    · rw [if_pos hx, if_pos hx, ih]
    · rw [if_neg hx, if_neg hx, ih]
      rw [List.append_assoc, List.singleton_append]
      congr 2
      apply dedupF_congr
      intro a
      simp only [List.mem_append, List.mem_singleton, List.mem_cons]
      tauto

theorem mem_of_mem_dedupF {x : String} :
    ∀ {l seen : List String}, x ∈ dedupF seen l → x ∈ l ∧ x ∉ seen := by
  intro l
  induction l with
  | nil => intro seen h; simp [dedupF] at h
  | cons y ys ih =>
    intro seen h
    simp only [dedupF] at h
    by_cases hy : y ∈ seen
    · rw [if_pos hy] at h
      obtain ⟨h1, h2⟩ := ih h
      exact ⟨List.mem_cons_of_mem _ h1, h2⟩
    · rw [if_neg hy] at h
      rcases List.mem_cons.mp h with h | h
      · subst h
        exact ⟨List.mem_cons_self _ _, hy⟩
      · obtain ⟨h1, h2⟩ := ih h
        exact ⟨List.mem_cons_of_mem _ h1, fun hc => h2 (List.mem_cons_of_mem _ hc)⟩

theorem mem_dedupF_of_mem {x : String} :
    ∀ {l seen : List String}, x ∈ l → x ∉ seen → x ∈ dedupF seen l := by
  intro l
  induction l with
  | nil => intro seen h _; simp at h
  | cons y ys ih =>
    intro seen h hs
    simp only [dedupF]
    by_cases hy : y ∈ seen
    · rw [if_pos hy]
      rcases List.mem_cons.mp h with h | h
      · exact absurd (h ▸ hy) hs
      · exact ih h hs
    · rw [if_neg hy]
      rcases List.mem_cons.mp h with h | h
      · exact h ▸ List.mem_cons_self _ _
      · by_cases hxy : x = y
        · exact hxy ▸ List.mem_cons_self _ _
        · exact List.mem_cons_of_mem _
            (ih h (by simp only [List.mem_cons]; tauto))

theorem dedupF_pairwise (l : List String) :
    ∀ seen, List.Pairwise (fun a b => l.indexOf a < l.indexOf b) (dedupF seen l) := by
  induction l with
  | nil => intro seen; simp [dedupF]
  | cons x xs ih =>
    intro seen
    simp only [dedupF]
    by_cases hx : x ∈ seen
    · rw [if_pos hx]
      refine (ih seen).imp_of_mem ?_
      intro a b ha hb hab
      have hax : x ≠ a := fun hc => (mem_of_mem_dedupF ha).2 (hc ▸ hx)
      have hbx : x ≠ b := fun hc => (mem_of_mem_dedupF hb).2 (hc ▸ hx)
      rw [List.indexOf_cons_ne _ hax, List.indexOf_cons_ne _ hbx]
      omega
    · rw [if_neg hx]
      constructor
      · intro b hb
        have hbmem := mem_of_mem_dedupF hb
        have hbx : x ≠ b := fun hc => hbmem.2 (by simp [hc])
        rw [List.indexOf_cons_self, List.indexOf_cons_ne _ hbx]
        omega
      · refine (ih (x :: seen)).imp_of_mem ?_
        intro a b ha hb hab
        have hax : x ≠ a := fun hc => (mem_of_mem_dedupF ha).2 (by simp [hc])
        have hbx : x ≠ b := fun hc => (mem_of_mem_dedupF hb).2 (by simp [hc])
        rw [List.indexOf_cons_ne _ hax, List.indexOf_cons_ne _ hbx]
        omega

theorem uniqueMatches_pairwise (l : List String) :
    List.Pairwise (fun a b => l.indexOf a < l.indexOf b) (uniqueMatches l) := by
  unfold uniqueMatches
  rw [uniqueLoop_eq_dedupF]
  simpa using dedupF_pairwise l []

theorem uniqueMatches_nodup (l : List String) : (uniqueMatches l).Nodup := by
  refine (uniqueMatches_pairwise l).imp ?_
  intro a b hab hc
  subst hc
  omega

theorem mem_uniqueMatches {x : String} {l : List String} :
    x ∈ uniqueMatches l ↔ x ∈ l := by
  unfold uniqueMatches
  rw [uniqueLoop_eq_dedupF]
  simp only [List.nil_append]
  constructor
  · intro h
    exact (mem_of_mem_dedupF h).1
  · intro h
    exact mem_dedupF_of_mem h (List.not_mem_nil x)

/-! ### Rank bookkeeping in the stage concatenation -/

theorem indexOf_append_ub {a : String} {Y : List String} (X Z : List String) (h : a ∈ Y) :
    (X ++ (Y ++ Z)).indexOf a < X.length + Y.length := by
  by_cases hX : a ∈ X
  · rw [List.indexOf_append_of_mem hX]
    have := List.indexOf_lt_length.mpr hX
    omega
  · rw [List.indexOf_append_of_not_mem hX, List.indexOf_append_of_mem h]
    have := List.indexOf_lt_length.mpr h
    omega

theorem indexOf_append_lb {a : String} (X Z : List String) (h : a ∉ X) :
    X.length ≤ (X ++ Z).indexOf a := by
  rw [List.indexOf_append_of_not_mem h]
  omega

theorem indexOf_lt_of_pairwise_rank {al r : List String}
    (hp : List.Pairwise (fun a b => al.indexOf a < al.indexOf b) r)
    {a b : String} (ha : a ∈ r) (hb : b ∈ r) (hab : al.indexOf a < al.indexOf b) :
    r.indexOf a < r.indexOf b := by
  have hia := List.indexOf_lt_length.mpr ha
  have hib := List.indexOf_lt_length.mpr hb
  rcases Nat.lt_trichotomy (r.indexOf a) (r.indexOf b) with h | h | h
  · exact h
  · exfalso
    have h1 := List.getElem_indexOf hia
    have h2 := List.getElem_indexOf hib
    have : a = b := by
      rw [← h1, ← h2]
      congr 1
    subst this
    omega
  · exfalso
    have := List.pairwise_iff_getElem.mp hp _ _ hib hia h
    rw [List.getElem_indexOf hib, List.getElem_indexOf hia] at this
    omega

theorem indexOf_append_ub0 {a : String} {Y : List String} (Z : List String) (h : a ∈ Y) :
    (Y ++ Z).indexOf a < Y.length := by
  rw [List.indexOf_append_of_mem h]
  exact List.indexOf_lt_length.mpr h

/-- C1: for every store and non-empty query, the returned suggestions are
ordered by first occurrence in the seven-stage concatenation — stages
contribute in precedence order, each internally in source insertion order,
and an entry already produced by an earlier stage is not repeated.  In
particular a matching block key precedes any matching word that is not
itself a block match, and a word matching at the starts-with stage precedes
a word matching only as an inner substring (and not at any earlier
stage). -/
theorem C1_stage_precedence (st : Store) (q : String) (mr : Nat) (hq : q ≠ "") :
    List.Pairwise
      (fun a b => (allMatches st (pyLower q)).indexOf a < (allMatches st (pyLower q)).indexOf b)
      (get_suggestions st q mr)
    ∧ (∀ k w, k ∈ get_suggestions st q mr → w ∈ get_suggestions st q mr →
        k ∈ blockMatches st (pyLower q) →
        (w ∈ emailMatches st (pyLower q) ∨ w ∈ startWordMatches st (pyLower q) ∨
          w ∈ substrWordMatches st (pyLower q)) →
        w ∉ blockMatches st (pyLower q) →
        (get_suggestions st q mr).indexOf k < (get_suggestions st q mr).indexOf w)
    ∧ (∀ w1 w2, w1 ∈ get_suggestions st q mr → w2 ∈ get_suggestions st q mr →
        w1 ∈ startWordMatches st (pyLower q) →
        w2 ∈ substrWordMatches st (pyLower q) →
        w2 ∉ blockMatches st (pyLower q) →
        w2 ∉ lineMatches st (pyLower q) →
        w2 ∉ emailMatches st (pyLower q) →
        w2 ∉ startPhraseMatches st (pyLower q) →
        (get_suggestions st q mr).indexOf w1 < (get_suggestions st q mr).indexOf w2) := by
  have hr : get_suggestions st q mr = (uniqueMatches (allMatches st (pyLower q))).take mr := by
    unfold get_suggestions
    rw [if_neg hq]
  have hpw : List.Pairwise
      (fun a b => (allMatches st (pyLower q)).indexOf a < (allMatches st (pyLower q)).indexOf b)
      (get_suggestions st q mr) := by
    rw [hr]
    exact List.Pairwise.sublist (List.take_sublist _ _)
      (uniqueMatches_pairwise (allMatches st (pyLower q)))
  refine ⟨hpw, ?_, ?_⟩
  · intro k w hk hw hkb _hww hwnb
    apply indexOf_lt_of_pairwise_rank hpw hk hw
    have hsplit : allMatches st (pyLower q) = blockMatches st (pyLower q) ++
        (lineMatches st (pyLower q) ++ (emailMatches st (pyLower q) ++
          (startWordMatches st (pyLower q) ++ (startPhraseMatches st (pyLower q) ++
            (substrWordMatches st (pyLower q) ++ substrPhraseMatches st (pyLower q)))))) := by
      simp [allMatches, List.append_assoc]
    rw [hsplit]
    have h1 := indexOf_append_ub0 (a := k)
      (lineMatches st (pyLower q) ++ (emailMatches st (pyLower q) ++
        (startWordMatches st (pyLower q) ++ (startPhraseMatches st (pyLower q) ++
          (substrWordMatches st (pyLower q) ++ substrPhraseMatches st (pyLower q)))))) hkb
    have h2 := indexOf_append_lb (a := w) (blockMatches st (pyLower q))
      (lineMatches st (pyLower q) ++ (emailMatches st (pyLower q) ++
        (startWordMatches st (pyLower q) ++ (startPhraseMatches st (pyLower q) ++
          (substrWordMatches st (pyLower q) ++ substrPhraseMatches st (pyLower q)))))) hwnb
    omega
  · intro w1 w2 h1m h2m h1sw h2sub h2nb h2nl h2ne h2nsp
    apply indexOf_lt_of_pairwise_rank hpw h1m h2m
    have h2nsw : w2 ∉ startWordMatches st (pyLower q) := by
      intro hc
      have hpred1 := (List.mem_filter.mp hc).2
      have hpred2 := (List.mem_filter.mp h2sub).2
      simp only [Bool.and_eq_true, Bool.not_eq_true'] at hpred2
      rw [hpred2.2] at hpred1
      exact absurd hpred1 (by simp)
    have hsplitA : allMatches st (pyLower q) =
        (blockMatches st (pyLower q) ++ (lineMatches st (pyLower q) ++
          emailMatches st (pyLower q))) ++
        (startWordMatches st (pyLower q) ++ (startPhraseMatches st (pyLower q) ++
          (substrWordMatches st (pyLower q) ++ substrPhraseMatches st (pyLower q)))) := by
      simp [allMatches, List.append_assoc]
    have hsplitB : allMatches st (pyLower q) =
        (blockMatches st (pyLower q) ++ (lineMatches st (pyLower q) ++
          (emailMatches st (pyLower q) ++ (startWordMatches st (pyLower q) ++
            startPhraseMatches st (pyLower q))))) ++
        (substrWordMatches st (pyLower q) ++ substrPhraseMatches st (pyLower q)) := by
      simp [allMatches, List.append_assoc]
    have hub : (allMatches st (pyLower q)).indexOf w1 <
        (blockMatches st (pyLower q) ++ (lineMatches st (pyLower q) ++
          emailMatches st (pyLower q))).length + (startWordMatches st (pyLower q)).length := by
      rw [hsplitA]
      have := indexOf_append_ub
        (blockMatches st (pyLower q) ++ (lineMatches st (pyLower q) ++
          emailMatches st (pyLower q)))
        (startPhraseMatches st (pyLower q) ++
          (substrWordMatches st (pyLower q) ++ substrPhraseMatches st (pyLower q))) h1sw
      simpa [List.append_assoc] using this
    have hlb : (blockMatches st (pyLower q) ++ (lineMatches st (pyLower q) ++
        (emailMatches st (pyLower q) ++ (startWordMatches st (pyLower q) ++
          startPhraseMatches st (pyLower q))))).length ≤
        (allMatches st (pyLower q)).indexOf w2 := by
      rw [hsplitB]
      apply indexOf_append_lb
      simp only [List.mem_append]
      tauto
    simp only [List.length_append] at hub hlb
    omega

/-- C6: `get_suggestions` returns at most `max_results` items, pairwise
distinct, each matching the query under one of the seven match stages, and
the empty query yields the empty list. -/
theorem C6_query_contract (st : Store) (q : String) (mr : Nat) :
    (get_suggestions st q mr).length ≤ mr
    ∧ (get_suggestions st q mr).Nodup
    ∧ (∀ x ∈ get_suggestions st q mr,
        x ∈ blockMatches st (pyLower q) ∨ x ∈ lineMatches st (pyLower q) ∨
          x ∈ emailMatches st (pyLower q) ∨ x ∈ startWordMatches st (pyLower q) ∨
          x ∈ startPhraseMatches st (pyLower q) ∨ x ∈ substrWordMatches st (pyLower q) ∨
          x ∈ substrPhraseMatches st (pyLower q))
    ∧ (q = "" → get_suggestions st q mr = []) := by
  by_cases hq : q = ""
  · subst hq
    simp [get_suggestions]
  · have hr : get_suggestions st q mr = (uniqueMatches (allMatches st (pyLower q))).take mr := by
      unfold get_suggestions
      rw [if_neg hq]
    refine ⟨?_, ?_, ?_, fun hc => absurd hc hq⟩
    · rw [hr]
      exact List.length_take_le _ _
    · rw [hr]
      exact List.Nodup.sublist (List.take_sublist _ _) (uniqueMatches_nodup _)
    · intro x hx
      rw [hr] at hx
      have hx3 : x ∈ allMatches st (pyLower q) :=
        mem_uniqueMatches.mp (List.take_subset _ _ hx)
      simp only [allMatches, List.mem_append] at hx3
      tauto

theorem C1_stage_precedence_witness :
    ("abc" ≠ "")
    ∧ (get_suggestions demoStore "abc" 10).indexOf "Key" <
        (get_suggestions demoStore "abc" 10).indexOf "abcdef"
    ∧ (get_suggestions demoStore "abc" 10).indexOf "abcdef" <
        (get_suggestions demoStore "abc" 10).indexOf "xabc" := by
  have h := C1_stage_precedence demoStore "abc" 10 (by decide)
  refine ⟨by decide, ?_, ?_⟩
  · exact h.2.1 "Key" "abcdef" (by decide) (by decide) (by decide) (by decide) (by decide)
  · exact h.2.2 "abcdef" "xabc" (by decide) (by decide) (by decide) (by decide) (by decide)
      (by decide) (by decide) (by decide)

theorem C6_query_contract_witness :
    (get_suggestions demoStore "abc" 10).length ≤ 10
    ∧ get_suggestions demoStore "" 10 = [] :=
  ⟨(C6_query_contract demoStore "abc" 10).1, (C6_query_contract demoStore "" 10).2.2.2 rfl⟩

/-- C7: an artifact that is the newest text file of the output directory is
loaded exactly when its age is at most 60 seconds: active at `t+59` and at
exactly `t+60`, inactive at `t+61`. -/
theorem C7_freshness_boundary (st : Store) (t now : Int) (content : String) :
    ((load_latest_ocr_file st (some [⟨"a.txt", t, content⟩]) now).1 = true ↔ now - t ≤ 60)
    ∧ (load_latest_ocr_file st (some [⟨"a.txt", t, content⟩]) (t + 59)).1 = true
    ∧ (load_latest_ocr_file st (some [⟨"a.txt", t, content⟩]) (t + 60)).1 = true
    ∧ (load_latest_ocr_file st (some [⟨"a.txt", t, content⟩]) (t + 61)).1 = false := by
  have htxt : strEndsWith "a.txt" ".txt" = true := by decide
  have hline : strEndsWith "a.txt" "_line.txt" = false := by decide
  have key : ∀ n : Int,
      (load_latest_ocr_file st (some [⟨"a.txt", t, content⟩]) n).1 = !decide (n - t > 60) := by
    intro n
    simp only [load_latest_ocr_file, List.filter, htxt, List.insertionSort,
      List.orderedInsert, hline]
    by_cases h : n - t > 60
    · simp only [if_pos h]
      simp [h]
    · simp only [if_neg h]
      simp [h]
  refine ⟨?_, ?_, ?_, ?_⟩
  · rw [key]
    simp only [Bool.not_eq_true', decide_eq_false_iff_not]
    omega
  · rw [key]
    simp only [Bool.not_eq_true', decide_eq_false_iff_not]
    omega
  · rw [key]
    simp only [Bool.not_eq_true', decide_eq_false_iff_not]
    omega
  · rw [key]
    have hgt : t + 61 - t > 60 := by omega
    simp [hgt]

/-- C10: a missing output directory, a directory with no text file, or a
newest text file older than 60 seconds all make `load_latest_ocr_file`
return `false` and leave the four collections exactly as they were. -/
theorem C10_reject_leaves_store (st : Store) (now : Int) :
    load_latest_ocr_file st none now = (false, st)
    ∧ (∀ entries : List OcrFile,
        entries.filter (fun f => strEndsWith f.name ".txt") = [] →
        load_latest_ocr_file st (some entries) now = (false, st))
    ∧ (∀ (entries : List OcrFile) (latest : OcrFile) (rest : List OcrFile),
        List.insertionSort (fun a b => b.mtime ≤ a.mtime)
          (entries.filter (fun f => strEndsWith f.name ".txt")) = latest :: rest →
        now - latest.mtime > 60 →
        load_latest_ocr_file st (some entries) now = (false, st)) := by
  refine ⟨rfl, ?_, ?_⟩
  · intro entries h
    simp only [load_latest_ocr_file, h, List.insertionSort]
  · intro entries latest rest h hage
    simp only [load_latest_ocr_file, h]
    rw [if_pos hage]

theorem C10_reject_leaves_store_witness :
    (List.filter (fun f => strEndsWith f.name ".txt") [(⟨"shot.png", 0, "x"⟩ : OcrFile)] = [])
    ∧ load_latest_ocr_file demoStore (some [⟨"shot.png", 0, "x"⟩]) 1000 = (false, demoStore)
    ∧ (List.insertionSort (fun a b => b.mtime ≤ a.mtime)
        (List.filter (fun f => strEndsWith f.name ".txt") [(⟨"old.txt", 0, "x"⟩ : OcrFile)]) =
        [⟨"old.txt", 0, "x"⟩])
    ∧ ((1000 : Int) - 0 > 60)
    ∧ load_latest_ocr_file demoStore (some [⟨"old.txt", 0, "x"⟩]) 1000 = (false, demoStore) := by
  refine ⟨by decide, ?_, by decide, by decide, ?_⟩
  · exact (C10_reject_leaves_store demoStore 1000).2.1 _ (by decide)
  · exact (C10_reject_leaves_store demoStore 1000).2.2 _ ⟨"old.txt", 0, "x"⟩ [] (by decide)
      (by decide)

/-- C9: a capture-hotkey press in SUGGESTING moves the machine to IDLE and
raises the stop flag of a live recognition job; a late job completion
(already past its cancellation check) still ingests into the capture lane
and clears the in-progress marker but touches neither the state nor the
window visibility, and the orchestrating loop does not re-show the popup;
the same absence of UI effect holds for the background job whether or not
it saw the stop flag. -/
theorem C9_dismiss_and_late_completion (m : ToolM) (ocrText : String)
    (hm : m.state = TState.Suggesting) :
    ((handle_capture_hotkey m).state = TState.Idle)
    ∧ (m.ocr_thread_alive = true → (handle_capture_hotkey m).stop_ocr = true)
    ∧ ((handle_capture_hotkey m).window_visible = m.window_visible)
    ∧ ((ocr_job_completion (handle_capture_hotkey m) ocrText).state = TState.Idle)
    ∧ ((ocr_job_completion (handle_capture_hotkey m) ocrText).window_visible =
        m.window_visible)
    ∧ ((ocr_job_completion (handle_capture_hotkey m) ocrText).ocr_in_progress = false)
    ∧ ((ocr_job_completion (handle_capture_hotkey m) ocrText).store =
        parse_ocr_file m.store ocrText)
    ∧ (main_loop_visibility_step (ocr_job_completion (handle_capture_hotkey m) ocrText) =
        ocr_job_completion (handle_capture_hotkey m) ocrText)
    ∧ ((process_ocr_in_background (handle_capture_hotkey m) ocrText).state = TState.Idle)
    ∧ ((process_ocr_in_background (handle_capture_hotkey m) ocrText).window_visible =
        m.window_visible)
    ∧ ((process_ocr_in_background (handle_capture_hotkey m) ocrText).ocr_in_progress = false)
    ∧ (main_loop_visibility_step (process_ocr_in_background (handle_capture_hotkey m) ocrText) =
        process_ocr_in_background (handle_capture_hotkey m) ocrText) := by
  unfold handle_capture_hotkey
  rw [hm]
  by_cases ht : m.ocr_thread_alive
  · simp [ht, ocr_job_completion, main_loop_visibility_step, process_ocr_in_background]
  · simp only [Bool.not_eq_true] at ht
    by_cases hs : m.stop_ocr
    · simp [ht, hs, ocr_job_completion, main_loop_visibility_step, process_ocr_in_background]
    · simp only [Bool.not_eq_true] at hs
      simp [ht, hs, ocr_job_completion, main_loop_visibility_step, process_ocr_in_background]

theorem C9_dismiss_and_late_completion_witness :
    (c9State.state = TState.Suggesting)
    ∧ ((handle_capture_hotkey c9State).state = TState.Idle)
    ∧ (main_loop_visibility_step (ocr_job_completion (handle_capture_hotkey c9State) "hello") =
        ocr_job_completion (handle_capture_hotkey c9State) "hello") := by
  have h := C9_dismiss_and_late_completion c9State "hello" (by decide)
  exact ⟨by decide, h.1, h.2.2.2.2.2.2.2.1⟩

/-! ### Generic fold preservation and growth lemmas -/

theorem foldl_preserves {α : Type} {β : Type} {P : β → Prop} {f : β → α → β}
    (hf : ∀ acc y, P acc → P (f acc y)) :
    ∀ (l : List α) {acc : β}, P acc → P (List.foldl f acc l) := by
  intro l
  induction l with
  | nil => intro acc h; exact h
  | cons y ys ih => intro acc h; exact ih (hf acc y h)

theorem mem_addIfAbsent_left {x : String} (acc : List String) (y : String) (h : x ∈ acc) :
    x ∈ addIfAbsent acc y := by
  unfold addIfAbsent
  split
  · exact h
  · exact List.mem_append_left _ h

theorem mem_addAllIfAbsent_left {x : String} {acc l : List String} (h : x ∈ acc) :
    x ∈ addAllIfAbsent acc l :=
  foldl_preserves (P := fun ws => x ∈ ws) (fun acc y hy => mem_addIfAbsent_left acc y hy) l h

theorem nodup_append_single {acc : List String} {x : String} (h : acc.Nodup) (hx : x ∉ acc) :
    (acc ++ [x]).Nodup := by
  rw [List.nodup_append]
  refine ⟨h, List.nodup_singleton x, ?_⟩
  intro a ha hax
  rw [List.mem_singleton] at hax
  subst hax
  exact hx ha

theorem addIfAbsent_nodup {acc : List String} (h : acc.Nodup) (x : String) :
    (addIfAbsent acc x).Nodup := by
  unfold addIfAbsent
  split
  · exact h
  · next hx => exact nodup_append_single h hx

theorem addAllIfAbsent_nodup {acc : List String} (h : acc.Nodup) (l : List String) :
    (addAllIfAbsent acc l).Nodup :=
  foldl_preserves (P := fun ws => List.Nodup ws) (fun _acc y hy => addIfAbsent_nodup hy y) l h

/-! ### Decimal rendering and fresh block keys -/

theorem digitVal_digitChar {d : Nat} (hd : d < 10) : (digitChar d).toNat - 48 = d := by
  interval_cases d <;> decide

theorem decodeDec_append (l : List Char) (c : Char) :
    decodeDec (l ++ [c]) = decodeDec l * 10 + (c.toNat - 48) := by
  unfold decodeDec
  rw [List.foldl_append]
  rfl

theorem natDecAux_decode : ∀ (fuel n : Nat), n ≤ fuel → decodeDec (natDecAux fuel n) = n := by
  intro fuel
  induction fuel with
  | zero =>
    intro n hn
    interval_cases n
    decide
  | succ fuel ih =>
    intro n hn
    unfold natDecAux
    by_cases h : n < 10
    · rw [if_pos h]
      show decodeDec [digitChar n] = n
      unfold decodeDec
      simp only [List.foldl_cons, List.foldl_nil, Nat.zero_mul, Nat.zero_add]
      exact digitVal_digitChar h
    · rw [if_neg h]
      rw [decodeDec_append]
      have h10 : n / 10 ≤ fuel := by omega
      rw [ih _ h10]
      have hm := digitVal_digitChar (d := n % 10) (by omega)
      omega

theorem natDecimal_inj {m n : Nat} (h : natDecimal m = natDecimal n) : m = n := by
  have hm := natDecAux_decode m m le_rfl
  have hn := natDecAux_decode n n le_rfl
  unfold natDecimal at h
  have hdata : natDecAux m m = natDecAux n n := by
    injection h
  rw [← hm, ← hn, hdata]

theorem numberedKey_inj {fl : String} {c1 c2 : Nat} (h : numberedKey fl c1 = numberedKey fl c2) :
    c1 = c2 := by
  unfold numberedKey at h
  apply natDecimal_inj
  have hd : (fl ++ " (" ++ natDecimal c1 ++ ")").data =
      (fl ++ " (" ++ natDecimal c2 ++ ")").data := by rw [h]
  simp only [String.data_append, List.append_assoc] at hd
  have h1 := List.append_cancel_left hd
  have h2 := List.append_cancel_left h1
  have h3 := List.append_cancel_right h2
  show (⟨(natDecimal c1).data⟩ : String) = ⟨(natDecimal c2).data⟩
  rw [h3]

theorem freshKeyAux_not_mem (keys : List String) (fl : String) :
    ∀ (fuel c : Nat), (∃ i, i < fuel ∧ numberedKey fl (c + i) ∉ keys) →
      freshKeyAux keys fl c fuel ∉ keys := by
  intro fuel
  induction fuel with
  | zero =>
    intro c h
    obtain ⟨i, hi, _⟩ := h
    omega
  | succ fuel ih =>
    intro c h
    obtain ⟨i, hi, hfree⟩ := h
    unfold freshKeyAux
    by_cases hc : numberedKey fl c ∈ keys
    · rw [if_pos hc]
      apply ih
      rcases Nat.eq_zero_or_pos i with h0 | hpos
      · subst h0
        simp only [Nat.add_zero] at hfree
        exact absurd hc hfree
      · refine ⟨i - 1, by omega, ?_⟩
        have heq : c + 1 + (i - 1) = c + i := by omega
        rw [heq]
        exact hfree
    · rw [if_neg hc]
      exact hc

theorem nodup_subset_length {l m : List String} (hn : l.Nodup) (hs : l ⊆ m) :
    l.length ≤ m.length := by
  have h1 : l.toFinset.card = l.length := List.toFinset_card_of_nodup hn
  have h2 : l.toFinset ⊆ m.toFinset := by
    intro x hx
    simp only [List.mem_toFinset] at hx ⊢
    exact hs hx
  have h3 := Finset.card_le_card h2
  have h4 := List.toFinset_card_le m
  omega

theorem exists_free_counter (keys : List String) (fl : String) :
    ∃ i, i < keys.length + 1 ∧ numberedKey fl (2 + i) ∉ keys := by
  by_contra hcon
  push_neg at hcon
  have hsub : ((List.range (keys.length + 1)).map (fun i => numberedKey fl (2 + i))) ⊆ keys := by
    intro x hx
    obtain ⟨i, hi, rfl⟩ := List.mem_map.mp hx
    exact hcon i (List.mem_range.mp hi)
  have hnd : ((List.range (keys.length + 1)).map (fun i => numberedKey fl (2 + i))).Nodup := by
    refine List.Nodup.map ?_ (List.nodup_range _)
    intro a b hab
    have := numberedKey_inj hab
    omega
  have hlen := nodup_subset_length hnd hsub
  simp only [List.length_map, List.length_range] at hlen
  omega

theorem freshKey_not_mem (keys : List String) (fl : String) : freshKey keys fl ∉ keys := by
  unfold freshKey
  by_cases h : fl ∈ keys
  · rw [if_pos h]
    apply freshKeyAux_not_mem
    obtain ⟨i, hi, hfree⟩ := exists_free_counter keys fl
    exact ⟨i, hi, hfree⟩
  · rw [if_neg h]
    exact h

/-! ### Deduplication invariants of the reference-lane parsers -/

theorem cells_inner_nodup {ws : List String} (h : ws.Nodup) (vs : List String) :
    (vs.foldl (fun acc v =>
      let v2 := pyStrip v
      if v2 ≠ "" && v2 ∉ acc then acc ++ [v2] else acc) ws).Nodup := by
  refine foldl_preserves (P := fun ws => List.Nodup ws) ?_ vs h
  intro acc v hacc
  by_cases hc : pyStrip v ≠ "" && pyStrip v ∉ acc
  · simp only [hc, if_pos]
    have hmem : pyStrip v ∉ acc := by
      rcases Bool.and_eq_true _ _ |>.mp hc with ⟨_, h2⟩
      simpa using h2
    exact nodup_append_single hacc hmem
  · simp only [hc]
    simpa using hacc

theorem parse_cells_words_nodup {st : Store} (h : st.words.Nodup) (sep content : String) :
    (parse_cells_file sep st content).words.Nodup := by
  unfold parse_cells_file
  refine foldl_preserves (P := fun ws => List.Nodup ws) ?_ _ h
  intro acc line hacc
  by_cases hl : pyStrip line = ""
  · simp only [hl, if_pos]
    simpa using hacc
  · rw [if_neg hl]
    exact cells_inner_nodup hacc _

theorem insertBlock_keys_nodup {blocks : List (String × String)}
    (h : (blocks.map Prod.fst).Nodup) (b : String) :
    ((insertBlock blocks b).map Prod.fst).Nodup := by
  unfold insertBlock
  by_cases hf : pyStrip ((pySplitSep b "\n").headD "") = ""
  · simp only [hf, if_pos]
    exact h
  · rw [if_neg hf]
    rw [List.map_append]
    exact nodup_append_single h (freshKey_not_mem _ _)

theorem parse_separator_keys_nodup {st : Store} (h : (st.blocks.map Prod.fst).Nodup)
    (content : String) : ((parse_separator_file st content).blocks.map Prod.fst).Nodup := by
  unfold parse_separator_file
  refine foldl_preserves
    (P := fun (bs : List (String × String)) => List.Nodup (bs.map Prod.fst)) ?_ _ h
  intro acc b hacc
  by_cases hb : b = ""
  · simp only [hb, if_pos]
    simpa using hacc
  · rw [if_neg hb]
    exact insertBlock_keys_nodup hacc b

theorem dispatch_parse_dedup {st : Store} (h : StoreDedup st) (f : DataFile) :
    StoreDedup (dispatch_parse st f) := by
  obtain ⟨hw, hp, hl, hb⟩ := h
  unfold dispatch_parse
  split
  · exact ⟨parse_cells_words_nodup hw _ _, hp, hl, hb⟩
  · split
    · exact ⟨parse_cells_words_nodup hw _ _, hp, hl, hb⟩
    · split
      · exact ⟨hw, hp, hl, parse_separator_keys_nodup hb _⟩
      · split
        · exact ⟨hw, hp, addAllIfAbsent_nodup hl _, hb⟩
        · exact ⟨addAllIfAbsent_nodup hw _, addAllIfAbsent_nodup hp _, hl, hb⟩

theorem emptyStore_dedup : StoreDedup emptyStore := by
  refine ⟨List.nodup_nil, List.nodup_nil, List.nodup_nil, ?_⟩
  simp [emptyStore]

/-- C3 as stated is false: the capture-lane OCR ingest appends phrase
windows without a duplicate check, so the text `"a b a b"` produces the
phrase `"a b"` twice. -/
theorem C3_counterexample : ¬ (parse_ocr_file emptyStore "a b a b").phrases.Nodup := by decide

/-- C3 amended: a reference-lane data-directory reload leaves all four
collections free of exact-text duplicates and the block keys unique; the
capture-lane OCR pass deduplicates only its tokenized word set (the email
and URL augmentation and the phrase windows may append duplicates). -/
theorem C3_reference_reload_dedup (st : Store) (files : List DataFile) (content : String) :
    StoreDedup (load_data_files st (some files)).2
    ∧ (pySetList (findWords content)).Nodup := by
  constructor
  · show StoreDedup
      (if (files.filter (fun f => isDataFileName f.name)).isEmpty then
        ((false, emptyStore) : Bool × Store)
       else
        (true, (files.filter (fun f => isDataFileName f.name)).foldl dispatch_parse emptyStore)).2
    by_cases hrel : (files.filter (fun f => isDataFileName f.name)).isEmpty
    · rw [if_pos hrel]
      exact emptyStore_dedup
    · rw [if_neg hrel]
      exact foldl_preserves (P := StoreDedup)
        (fun _acc f h => dispatch_parse_dedup h f) _ emptyStore_dedup
  · exact uniqueMatches_nodup _

/-- C2 as stated is false: the capture-lane ingest resets the whole Word
collection (suggestion_manager.py lines 96-98), so the word `"refword"`
previously loaded from the data directory vanishes when a plain OCR file
is ingested. -/
theorem C2_counterexample :
    "refword" ∈ c2RefStore.words
    ∧ "refword" ∉ (parse_ocr_file c2RefStore "hello").words
    ∧ (parse_ocr_file c2RefStore "hello").words = ["hello"] := by decide

/-- C2 amended: ingesting capture text replaces the Word and Phrase
collections wholesale with entries derived from the capture text alone
(whatever was loaded before, reference words included, is dropped), while
Lines and Blocks are left untouched; a `_line`-suffixed OCR file instead
appends to Lines and touches nothing else. -/
theorem C2_capture_replaces_words_phrases (st st2 : Store) (content : String) :
    ((parse_ocr_file st content).lines = st.lines)
    ∧ ((parse_ocr_file st content).blocks = st.blocks)
    ∧ ((parse_ocr_file st content).words = (parse_ocr_file st2 content).words)
    ∧ ((parse_ocr_file st content).phrases = (parse_ocr_file st2 content).phrases)
    ∧ ((parse_line_file st content).words = st.words)
    ∧ ((parse_line_file st content).phrases = st.phrases)
    ∧ ((parse_line_file st content).blocks = st.blocks)
    ∧ (∀ x ∈ st.lines, x ∈ (parse_line_file st content).lines) := by
  refine ⟨rfl, rfl, rfl, rfl, rfl, rfl, rfl, ?_⟩
  intro x hx
  exact mem_addAllIfAbsent_left hx

theorem C2_capture_replaces_words_phrases_witness :
    ((parse_ocr_file c4Init "hello").lines = c4Init.lines)
    ∧ ("old line" ∈ (parse_line_file c4Init "new line").lines) := by
  have h := C2_capture_replaces_words_phrases c4Init emptyStore "hello"
  have h2 := C2_capture_replaces_words_phrases c4Init emptyStore "new line"
  exact ⟨h.1, h2.2.2.2.2.2.2.2 "old line" (by decide)⟩

/-! ### Monotone growth of the reference reload -/

theorem storeLe_refl (s : Store) : StoreLe s s :=
  ⟨List.Subset.refl _, List.Subset.refl _, List.Subset.refl _, List.Subset.refl _⟩

theorem storeLe_trans {a b c : Store} (h1 : StoreLe a b) (h2 : StoreLe b c) : StoreLe a c :=
  ⟨h1.1.trans h2.1, h1.2.1.trans h2.2.1, h1.2.2.1.trans h2.2.2.1, h1.2.2.2.trans h2.2.2.2⟩

theorem subset_addAllIfAbsent (acc l : List String) : acc ⊆ addAllIfAbsent acc l :=
  fun _x hx => mem_addAllIfAbsent_left hx

theorem parse_data_grows (st : Store) (content : String) :
    StoreLe st (parse_data_file st content) :=
  ⟨subset_addAllIfAbsent _ _, subset_addAllIfAbsent _ _,
    List.Subset.refl _, List.Subset.refl _⟩

theorem parse_line_grows (st : Store) (content : String) :
    StoreLe st (parse_line_file st content) :=
  ⟨List.Subset.refl _, List.Subset.refl _, subset_addAllIfAbsent _ _, List.Subset.refl _⟩

theorem parse_cells_grows (st : Store) (sep content : String) :
    StoreLe st (parse_cells_file sep st content) := by
  refine ⟨?_, List.Subset.refl _, List.Subset.refl _, List.Subset.refl _⟩
  intro x hx
  unfold parse_cells_file
  refine foldl_preserves (P := fun ws => x ∈ ws) ?_ _ hx
  intro acc line hacc
  by_cases hl : pyStrip line = ""
  · rw [if_pos hl]
    exact hacc
  · rw [if_neg hl]
    refine foldl_preserves (P := fun ws => x ∈ ws) ?_ _ hacc
    intro acc2 v hacc2
    show x ∈ if (decide (pyStrip v ≠ "") && decide (pyStrip v ∉ acc2)) = true
        then acc2 ++ [pyStrip v] else acc2
    by_cases hc : (decide (pyStrip v ≠ "") && decide (pyStrip v ∉ acc2)) = true
    · rw [if_pos hc]
      exact List.mem_append_left _ hacc2
    · rw [if_neg hc]
      exact hacc2

theorem parse_separator_grows (st : Store) (content : String) :
    StoreLe st (parse_separator_file st content) := by
  refine ⟨List.Subset.refl _, List.Subset.refl _, List.Subset.refl _, ?_⟩
  intro x hx
  unfold parse_separator_file
  refine foldl_preserves
    (P := fun (bs : List (String × String)) => x ∈ bs.map Prod.fst) ?_ _ hx
  intro acc b hacc
  by_cases hb : b = ""
  · rw [if_pos hb]
    exact hacc
  · rw [if_neg hb]
    unfold insertBlock
    by_cases hf : pyStrip ((pySplitSep b "\n").headD "") = ""
    · rw [if_pos hf]
      exact hacc
    · rw [if_neg hf]
      rw [List.map_append]
      exact List.mem_append_left _ hacc

theorem dispatch_parse_grows (st : Store) (f : DataFile) :
    StoreLe st (dispatch_parse st f) := by
  unfold dispatch_parse
  split
  · exact parse_cells_grows st _ _
  · split
    · exact parse_cells_grows st _ _
    · split
      · exact parse_separator_grows st _
      · split
        · exact parse_line_grows st _
        · exact parse_data_grows st _

theorem storeLe_foldl (files : List DataFile) :
    ∀ b : Store, StoreLe b (files.foldl dispatch_parse b) := by
  induction files with
  | nil => intro b; exact storeLe_refl b
  | cons f fs ih =>
    intro b
    exact storeLe_trans (dispatch_parse_grows b f) (ih (dispatch_parse b f))

theorem scanl_storeLe {s : Store} :
    ∀ {files : List DataFile} {b : Store},
      s ∈ List.scanl dispatch_parse b files → StoreLe s (files.foldl dispatch_parse b) := by
  intro files
  induction files with
  | nil =>
    intro b hs
    simp only [List.scanl, List.mem_singleton] at hs
    subst hs
    exact storeLe_refl _
  | cons f fs ih =>
    intro b hs
    rw [List.scanl_cons] at hs
    simp only [List.singleton_append, List.mem_cons] at hs
    rcases hs with h | h
    · subst h
      simp only [List.foldl_cons]
      exact storeLe_trans (dispatch_parse_grows _ f) (storeLe_foldl fs _)
    · simp only [List.foldl_cons]
      exact ih h

/-- C4 as stated is false: the reload clears all four collections in place
before repopulating them file by file, so a reader running between the
clear and the first parse observes the fully empty store, which is neither
the pre-reload store nor the reloaded one. -/
theorem C4_counterexample :
    emptyStore ∈ reload_trace c4Init c4Files
    ∧ emptyStore ≠ c4Init
    ∧ emptyStore ≠ (load_data_files c4Init (some c4Files)).2 := by decide

/-- C4 amended: the reload mutates the store in place, clearing the four
collections one assignment at a time (Words, then Phrases, then Lines,
then Blocks) before repopulating file by file, so a concurrent reader can
observe half-populated states: the partially-cleared stores (old data with
a growing set of collections already emptied, in that order) as well as
every post-clear growth state.  Every observable state is the pre-reload
store, one of the three partially-cleared stores, or a store whose
collections contain only entries of the new load; consequently a reader
that sees any new Block key sees only new Line data, never old lines mixed
with new blocks. -/
theorem C4_reload_in_place (st : Store) (files : List DataFile) (s : Store)
    (hs : s ∈ reload_trace st files) :
    (s = st ∨ s = { st with words := [] } ∨ s = { st with words := [], phrases := [] }
      ∨ s = { st with words := [], phrases := [], lines := [] }
      ∨ StoreLe s (load_data_files st (some files)).2)
    ∧ ((∃ k ∈ s.blocks.map Prod.fst, k ∉ st.blocks.map Prod.fst) →
        s.lines ⊆ (load_data_files st (some files)).2.lines) := by
  have heq : (load_data_files st (some files)).2 =
      (files.filter (fun f => isDataFileName f.name)).foldl dispatch_parse emptyStore := by
    show (if (files.filter (fun f => isDataFileName f.name)).isEmpty then
        ((false, emptyStore) : Bool × Store)
      else
        (true,
          (files.filter (fun f => isDataFileName f.name)).foldl dispatch_parse emptyStore)).2 =
      _
    by_cases hrel : (files.filter (fun f => isDataFileName f.name)).isEmpty
    · rw [if_pos hrel]
      have hnil : files.filter (fun f => isDataFileName f.name) = [] :=
        List.isEmpty_iff.mp hrel
      rw [hnil]
      rfl
    · rw [if_neg hrel]
  unfold reload_trace at hs
  simp only [List.mem_cons] at hs
  have hmain : s = st ∨ s = { st with words := [] }
      ∨ s = { st with words := [], phrases := [] }
      ∨ s = { st with words := [], phrases := [], lines := [] }
      ∨ StoreLe s (load_data_files st (some files)).2 := by
    rcases hs with h | h | h | h | h
    · exact Or.inl h
    · exact Or.inr (Or.inl h)
    · exact Or.inr (Or.inr (Or.inl h))
    · exact Or.inr (Or.inr (Or.inr (Or.inl h)))
    · refine Or.inr (Or.inr (Or.inr (Or.inr ?_)))
      rw [heq]
      exact scanl_storeLe h
  refine ⟨hmain, ?_⟩
  intro hex
  obtain ⟨k, hk, hknot⟩ := hex
  rcases hmain with h | h | h | h | h
  · subst h
    exact absurd hk hknot
  · subst h
    exact absurd hk hknot
  · subst h
    exact absurd hk hknot
  · subst h
    exact absurd hk hknot
  · exact h.2.2.1

theorem C4_reload_in_place_witness :
    (emptyStore ∈ reload_trace c4Init c4Files)
    ∧ ((emptyStore = c4Init ∨ emptyStore = { c4Init with words := [] }
        ∨ emptyStore = { c4Init with words := [], phrases := [] }
        ∨ emptyStore = { c4Init with words := [], phrases := [], lines := [] }
        ∨ StoreLe emptyStore (load_data_files c4Init (some c4Files)).2)
      ∧ ((∃ k ∈ emptyStore.blocks.map Prod.fst, k ∉ c4Init.blocks.map Prod.fst) →
          emptyStore.lines ⊆ (load_data_files c4Init (some c4Files)).2.lines)) :=
  ⟨by decide, C4_reload_in_place c4Init c4Files emptyStore (by decide)⟩

/-- C5 as stated is false: the reference-lane data-file parser
(`_parse_data_file`) performs no email augmentation, so ingesting the
contact line from the data directory never produces the full email as a
candidate, and querying `"frank"` does not return it. -/
theorem C5_counterexample :
    "frank.schnepf@example.com" ∉ get_suggestions c5RefStore "frank" 10 := by decide

/-- C5 amended: email augmentation happens in the capture-lane OCR parser
only; when the contact line is ingested through the capture lane, querying
`"frank"` returns the full email, its local part and the bare first name,
each exactly once. -/
theorem C5_capture_email_augmentation :
    ((get_suggestions c5CapStore "frank" 10).count "frank.schnepf@example.com" = 1)
    ∧ ((get_suggestions c5CapStore "frank" 10).count "frank.schnepf" = 1)
    ∧ ((get_suggestions c5CapStore "frank" 10).count "frank" = 1) := by decide

/-! ### The retention sweep -/

theorem sweepFileStep_of_statOk {f : SweepFile} (hf : f.statOk = true) (now ma : Int) :
    sweepFileStep now ma f = Except.ok (if keepFile now ma f then some f else none) := by
  unfold sweepFileStep keepFile
  by_cases hdir : f.isDir <;>
    by_cases hext : (strEndsWith f.name ".png" || strEndsWith f.name ".txt") = true <;>
      by_cases hage : now - f.mtime > ma <;>
        by_cases hrem : f.removable <;>
          simp [hdir, hext, hage, hrem, hf]

theorem sweepLoop_spec (now ma : Int) :
    ∀ files : List SweepFile, (∀ f ∈ files, f.statOk = true) →
      sweepLoop now ma files = Except.ok (files.filter (keepFile now ma)) := by
  intro files
  induction files with
  | nil => intro _; rfl
  | cons f fs ih =>
    intro h
    have hf : f.statOk = true := h f (List.mem_cons_self _ _)
    have hfs : ∀ g ∈ fs, g.statOk = true := fun g hg => h g (List.mem_cons_of_mem _ hg)
    have hrest := ih hfs
    simp only [sweepLoop, sweepFileStep_of_statOk hf now ma, hrest, List.filter_cons]
    by_cases hkeep : keepFile now ma f = true
    · simp [hkeep, Except.map]
    · simp only [Bool.not_eq_true] at hkeep
      simp [hkeep, Except.map]

/-- C8 as stated is false: only the `os.remove` call is guarded by a
`try`; the modification-time read of line 127 is not, so a text file that
disappeared between the directory listing and its stat makes the sweep
raise instead of being logged and skipped. -/
theorem C8_counterexample :
    cleanup_old_files (some [c8GoneFile]) 10000 1 = Except.error "gone.txt" := rfl

/-- C8 amended: when every listed file can still be stat-ed, the sweep
never raises and keeps exactly the files that are directories, are neither
`.png` nor `.txt`, are not older than the threshold, or fail to delete
(delete failures are logged and skipped); equivalently it deletes every
removable screenshot or text file older than the threshold and retains
every file younger than it.  A file that cannot be stat-ed, however, makes
the sweep raise. -/
theorem C8_sweep_contract (files : List SweepFile) (now maxAgeHours : Int)
    (hstat : ∀ f ∈ files, f.statOk = true) :
    cleanup_old_files (some files) now maxAgeHours =
      Except.ok (files.filter (keepFile now (maxAgeHours * 3600)))
    ∧ (∀ f ∈ files, f.isDir = false →
        (strEndsWith f.name ".png" || strEndsWith f.name ".txt") = true →
        now - f.mtime > maxAgeHours * 3600 → f.removable = true →
        f ∉ files.filter (keepFile now (maxAgeHours * 3600)))
    ∧ (∀ f ∈ files, now - f.mtime ≤ maxAgeHours * 3600 →
        f ∈ files.filter (keepFile now (maxAgeHours * 3600)))
    ∧ (∀ f ∈ files, f.removable = false →
        f ∈ files.filter (keepFile now (maxAgeHours * 3600))) := by
  refine ⟨sweepLoop_spec now (maxAgeHours * 3600) files hstat, ?_, ?_, ?_⟩
  · intro f hfm hdir hext hage hrem hc
    have hkeep := (List.mem_filter.mp hc).2
    simp only [keepFile, hdir, hext, hage, hrem] at hkeep
    simp at hkeep
  · intro f hfm hage
    rw [List.mem_filter]
    refine ⟨hfm, ?_⟩
    simp only [keepFile]
    have : decide (now - f.mtime > maxAgeHours * 3600) = false := by
      simp only [decide_eq_false_iff_not]
      omega
    rw [this]
    simp
  · intro f hfm hrem
    rw [List.mem_filter]
    refine ⟨hfm, ?_⟩
    simp [keepFile, hrem]

theorem C8_sweep_contract_witness :
    (∀ f ∈ c8Files, f.statOk = true)
    ∧ cleanup_old_files (some c8Files) 7200 1 =
        Except.ok (c8Files.filter (keepFile 7200 3600)) := by
  refine ⟨by decide, ?_⟩
  have h := C8_sweep_contract c8Files 7200 1 (by decide)
  have heq : (1 : Int) * 3600 = 3600 := by norm_num
  rw [← heq]
  exact h.1
